import Mathlib

/-!
Verification development for `x2wechat.py`: a shallow embedding of the
incremental sync engine (id extraction, watermark filtering, per-account
delivery loop, mirror failover, push result decoding, atomic checkpoint
save), with theorems settling the specification's claims.

Modelling conventions:
* Python `str` values are Lean `String`s (sequences of code points); where a
  claim is about character slicing the honest model is `List Char`.
* Machine-level I/O (HTTP, filesystem bytes) is passed in as data: a mirror
  probe is its observed `(status, body)` outcome, a push is the channel's
  response to the rendered entry.
* Python exceptions that the code does not catch are modelled with `Except`.
* `\d` / `\w` in the tweet-id regex and `int()` / `str.strip()` whitespace
  are modelled over ASCII; the ids this program manipulates are ASCII digits.
-/

namespace X2Wechat

/-- A raw RSS item as produced by `parse_rss_items` (x2wechat.py:87-116):
the four text fields of one `<item>` element. -/
structure Item where
  title : String
  link : String
  pubDate : String
  description : String
deriving DecidableEq, Repr

/-- Word character for the regex word-boundary `\b`: `[A-Za-z0-9_]`. -/
def isWordChar (c : Char) : Bool :=
  c.isAlphanum || c = '_'

/-- The literal part of `TWEET_ID_RE = /status/(\d+)\b` (x2wechat.py:119). -/
def statusPat : List Char :=
  ['/', 's', 't', 'a', 't', 'u', 's', '/']

/-- Whether the first list is a leading segment of the second. -/
def startsWithL : List Char → List Char → Bool
  | [], _ => true
  | _ :: _, [] => false
  | p :: ps, c :: cs => p = c && startsWithL ps cs

/-- Try to match `/status/(\d+)\b` at the head of `s`: after the literal,
take the maximal digit run; it matches when nonempty and followed by a
non-word character or the end of the string (the `\b` boundary; shorter
digit runs can never satisfy `\b` between two digits, so greedy is exact). -/
def matchAt (s : List Char) : Option (List Char) :=
  if startsWithL statusPat s then
    let rest := s.drop 8
    let ds := rest.takeWhile Char.isDigit
    match ds, rest.drop ds.length with
    | [], _ => none
    | d :: ds', [] => some (d :: ds')
    | d :: ds', a :: _ => if isWordChar a then none else some (d :: ds')
  else none

/-- `re.search` semantics: try `matchAt` at every position, left to right. -/
def searchStatus : List Char → Option (List Char)
  | [] => none
  | c :: rest =>
    match matchAt (c :: rest) with
    | some ds => some ds
    | none => searchStatus rest

/-- `extract_tweet_id` (x2wechat.py:122-124): first match of
`/status/(\d+)\b` in the link, or `None`. -/
def extract_tweet_id (link : String) : Option String :=
  (searchStatus link.data).map String.mk

/-- ASCII whitespace stripped by Python's `int()` (via `str.strip`). -/
def isPySpace (c : Char) : Bool :=
  c ∈ [' ', '\t', '\n', '\r', '\x0b', '\x0c']

/-- Numeric value of a decimal digit run. -/
def digitsVal (cs : List Char) : Nat :=
  cs.foldl (fun n c => 10 * n + (c.toNat - 48)) 0

/-- Core of `int()` on an already-stripped character list: optional sign,
then a nonempty run of decimal digits; anything else raises `ValueError`. -/
def pyIntCore : List Char → Except Unit Int
  | [] => .error ()
  | c :: rest =>
    if c = '-' then
      if rest ≠ [] ∧ rest.all Char.isDigit then .ok (-(digitsVal rest : Int)) else .error ()
    else if c = '+' then
      if rest ≠ [] ∧ rest.all Char.isDigit then .ok ((digitsVal rest : Int)) else .error ()
    else
      if (c :: rest).all Char.isDigit then .ok ((digitsVal (c :: rest) : Int)) else .error ()

/-- Python `int(s)` for a string (x2wechat.py:323 uses it on both the tweet
id and the stored watermark): strip surrounding whitespace, then parse an
optionally signed decimal numeral; failure models `ValueError`. -/
def pyInt (s : String) : Except Unit Int :=
  pyIntCore (((s.data.dropWhile isPySpace).reverse.dropWhile isPySpace).reverse)

/-- Integer identifier of an item, when its link has an extractable id. -/
def tweetIdInt (it : Item) : Option Int :=
  (extract_tweet_id it.link).bind fun t => (pyInt t).toOption

/-- The keep-condition of the watermark filter once the stored watermark
parsed to `n`: the item has an extractable id and its integer value is
strictly greater than `n` (x2wechat.py:323). -/
def keepNew (n : Int) (it : Item) : Bool :=
  match tweetIdInt it with
  | some t => decide (n < t)
  | none => false

/-- The watermark filter loop (x2wechat.py:318-324): items without an
extractable id are skipped; with no stored watermark every remaining item is
kept; otherwise `int(tid) > int(last_id)` decides, where `int(last_id)` can
raise (modelled as `Except.error`). -/
def filterNew (lastId : Option String) : List Item → Except Unit (List Item)
  | [] => .ok []
  | it :: rest =>
    match extract_tweet_id it.link with
    | none => filterNew lastId rest
    | some tid =>
      match lastId with
      | none => do
        let r ← filterNew lastId rest
        pure (it :: r)
      | some lid => do
        let t ← pyInt tid
        let l ← pyInt lid
        let r ← filterNew lastId rest
        pure (if l < t then it :: r else r)

/-- Python's string ordering: lexicographic on code points, a proper prefix
sorting before its extensions. -/
def strLeB : List Char → List Char → Bool
  | [], _ => true
  | _ :: _, [] => false
  | c :: cs, d :: ds =>
    if c.toNat < d.toNat then true
    else if d.toNat < c.toNat then false
    else strLeB cs ds

/-- The sort key relation used at x2wechat.py:146 and 331:
`key=lambda x: x.get("pubDate", "")` compares the raw pubDate strings as
Python strings, i.e. lexicographically by code point. -/
def pubLe (a b : Item) : Prop :=
  strLeB a.pubDate.data b.pubDate.data = true

instance : DecidableRel pubLe := fun a b =>
  inferInstanceAs (Decidable (strLeB a.pubDate.data b.pubDate.data = true))

instance : IsTotal Item pubLe := ⟨by
  have key : ∀ x y : List Char, strLeB x y = true ∨ strLeB y x = true := by
    intro x
    induction x with
    | nil => exact fun y => Or.inl rfl
    | cons c cs ih =>
      intro y
      cases y with
      | nil => exact Or.inr rfl
      | cons d ds =>
        by_cases h1 : c.toNat < d.toNat
        · left
          rw [strLeB, if_pos h1]
        · by_cases h2 : d.toNat < c.toNat
          · right
            rw [strLeB, if_pos h2]
          · rcases ih ds with h | h
            · left
              rw [strLeB, if_neg h1, if_neg h2]
              exact h
            · right
              rw [strLeB, if_neg h2, if_neg h1]
              exact h
  exact fun a b => key a.pubDate.data b.pubDate.data⟩

instance : IsTrans Item pubLe := ⟨by
  have key : ∀ x y z : List Char,
      strLeB x y = true → strLeB y z = true → strLeB x z = true := by
    intro x
    induction x with
    | nil => exact fun y z _ _ => rfl
    | cons c cs ih =>
      intro y z hxy hyz
      cases y with
      | nil =>
        rw [strLeB] at hxy
        cases hxy
      | cons d ds =>
        cases z with
        | nil =>
          rw [strLeB] at hyz
          cases hyz
        | cons e es =>
          rw [strLeB] at hxy hyz ⊢
          by_cases h1 : c.toNat < d.toNat
          · by_cases h2 : d.toNat < e.toNat
            · rw [if_pos (by omega : c.toNat < e.toNat)]
            · by_cases h3 : e.toNat < d.toNat
              · rw [if_neg h2, if_pos h3] at hyz
                cases hyz
              · rw [if_pos (by omega : c.toNat < e.toNat)]
          · by_cases h4 : d.toNat < c.toNat
            · rw [if_neg h1, if_pos h4] at hxy
              cases hxy
            · rw [if_neg h1, if_neg h4] at hxy
              by_cases h2 : d.toNat < e.toNat
              · rw [if_pos (by omega : c.toNat < e.toNat)]
              · by_cases h3 : e.toNat < d.toNat
                · rw [if_neg h2, if_pos h3] at hyz
                  cases hyz
                · rw [if_neg h2, if_neg h3] at hyz
                  rw [if_neg (by omega : ¬c.toNat < e.toNat),
                    if_neg (by omega : ¬e.toNat < c.toNat)]
                  exact ih ds es hxy hyz
  exact fun a b c hab hbc => key a.pubDate.data b.pubDate.data c.pubDate.data hab hbc⟩

/-- Python's stable ascending `list.sort` on the pubDate string key,
modelled by stable insertion sort. -/
def sortByPubDate (l : List Item) : List Item :=
  l.insertionSort pubLe

/-- The per-entry confirmation record of one item: its extracted id when the
push was confirmed, nothing otherwise (x2wechat.py:344-349 records
`latest_seen_id = tid` exactly when `ok and tid`). -/
def confirmedId (push : Item → Bool) (it : Item) : Option String :=
  if push it then extract_tweet_id it.link else none

/-- The ids of the entries whose delivery was confirmed, in delivery order. -/
def confirmedIds (push : Item → Bool) (s : List Item) : List String :=
  s.filterMap (confirmedId push)

/-- The delivery loop (x2wechat.py:333-349): attempt every entry in order
(there is no early exit), and on each confirmed push with an extractable id
update the running `latest_seen_id`. Returns the final `latest_seen_id` and
the confirmed ids in order. `push` is the channel's (deterministic) response
to the rendered entry. -/
def deliverLoop (push : Item → Bool) : Option String → List Item → Option String × List String
  | latest, [] => (latest, [])
  | latest, it :: rest =>
    match confirmedId push it with
    | some tid =>
      let r := deliverLoop push (some tid) rest
      (r.1, tid :: r.2)
    | none => deliverLoop push latest rest

/-- Per-user checkpoint record as this program reads it. `none` models a
user absent from the state (or present as a falsy empty record); `some v`
models a truthy stored record whose `last_id` field is `v` (`none` for a
JSON null or missing field, `some s` for a stored string or the string form
of a stored number). -/
abbrev UserState := Option (Option String)

/-- Python `str()` of the stored `last_id` value: `str(None) = "None"`. -/
def pyStrOfOpt : Option String → String
  | none => "None"
  | some s => s

/-- Line 316: `last_id = str(users_state.get(u, {}).get("last_id")) if
users_state.get(u) else None`. -/
def getLastId (us : UserState) : Option String :=
  us.map pyStrOfOpt

/-- Outcome of one account's processing: the user's checkpoint record
afterwards and the confirmed-delivered ids of this pass. -/
structure PassResult where
  newState : UserState
  delivered : List String
deriving DecidableEq, Repr

/-- Lines 351-352: store the final `latest_seen_id` when it is truthy
(a nonempty string), else leave the user's record as it was. -/
def finishPass (us : UserState) (r : Option String × List String) : PassResult :=
  match r.1 with
  | some s => if s = "" then ⟨us, r.2⟩ else ⟨some (some s), r.2⟩
  | none => ⟨us, r.2⟩

/-- Lines 326-352: what happens after the watermark filter produced
`newItems`: skip when empty, else sort by pubDate string, run the delivery
loop, and persist the final `latest_seen_id` when truthy. -/
def afterFilter (push : Item → Bool) (us : UserState) (newItems : List Item) : PassResult :=
  if newItems = [] then ⟨us, []⟩
  else finishPass us (deliverLoop push (getLastId us) (sortByPubDate newItems))

/-- One account's processing inside `run_once` (x2wechat.py:311-352), given
the fetched items and the channel's per-entry outcomes: skip on empty fetch;
read the watermark; filter; skip when nothing is new; sort by pubDate string;
run the delivery loop; store `latest_seen_id` when truthy. An uncaught
`ValueError` from `int(last_id)` surfaces as `Except.error`. -/
def processAccount (push : Item → Bool) (us : UserState) (items : List Item) :
    Except Unit PassResult :=
  if items = [] then .ok ⟨us, []⟩
  else (filterNew (getLastId us) items).map (afterFilter push us)

/-- A sequence of passes over one account: each pass sees the fetched items
and channel outcomes of that pass and threads the checkpoint record. -/
def runPasses : List ((Item → Bool) × List Item) → UserState → Except Unit UserState
  | [], us => .ok us
  | p :: rest, us =>
    match processAccount p.1 us p.2 with
    | .error e => .error e
    | .ok r => runPasses rest r.newState

/-- The integer value of the persisted watermark, when present and parseable. -/
def wmInt (us : UserState) : Option Int :=
  (getLastId us).bind fun lid => (pyInt lid).toOption

/-- Observed outcome of probing one mirror: the HTTP status, whether the raw
body was nonempty (its Python truthiness), and what `parse_rss_items` yields
on that body (empty for an unparseable document). -/
structure MirrorResp where
  code : Nat
  bodyNonempty : Bool
  items : List Item
deriving DecidableEq, Repr

/-- Line 143: a probe is used iff `code == 200 and body`. -/
def mirrorOk (r : MirrorResp) : Bool :=
  r.code == 200 && r.bodyNonempty

/-- `fetch_latest_from_nitter` (x2wechat.py:137-148) over the observed probe
outcomes: walk the mirrors in list order, return the parsed and
pubDate-sorted items of the first usable response; if none is usable return
`[]`. Also returns how many mirrors were contacted. -/
def fetch_latest_from_nitter : List MirrorResp → List Item × Nat
  | [] => ([], 0)
  | r :: rest =>
    if mirrorOk r then (sortByPubDate r.items, 1)
    else
      let t := fetch_latest_from_nitter rest
      (t.1, t.2 + 1)

/-- Decoded body of a WeCom webhook response: `none` when the body is not a
JSON object (`json.loads` or `.get` raises, caught at x2wechat.py:185);
`some ec` when it is, with `ec` the integer `errcode` field when present
(a present non-integer value compares unequal to 0 exactly like the `-1`
default, so it is subsumed by `some none`). -/
abbrev DecodedBody := Option (Option Int)

/-- `push_wecom` result logic (x2wechat.py:174-187): `False` unless the
status is exactly 200 and the decoded body's `errcode` (default -1) equals 0. -/
def push_wecom (status : Nat) (body : DecodedBody) : Bool :=
  if status ≠ 200 then false
  else
    match body with
    | none => false
    | some ec => ec.getD (-1) == 0

/-- `push_serverchan` result logic (x2wechat.py:189-198): `False` unless the
status is exactly 200 and the decoded body's `code` field is present and 0
(`resp.get("code") == 0`; an absent field gives `None == 0`, false). -/
def push_serverchan (status : Nat) (body : DecodedBody) : Bool :=
  if status ≠ 200 then false
  else
    match body with
    | none => false
    | some c =>
      match c with
      | some v => v == 0
      | none => false

/-- The text content placed in the WeCom payload (x2wechat.py:177):
`text[:4096]`, the first 4096 code points of the rendered message. -/
def wecomContent (text : List Char) : List Char :=
  text.take 4096

/-- A filesystem as the checkpoint code observes it: path to file content. -/
def FS := String → Option String

/-- Point update of the filesystem (`none` removes the file). -/
def fsUpdate (fs : FS) (p : String) (v : Option String) : FS :=
  fun q => if q = p then v else fs q

/-- Line 164: the temporary path is the target path plus `.tmp`. -/
def tmpPath (path : String) : String :=
  path ++ ".tmp"

/-- Every filesystem state reachable while `save_json_atomic` is still
writing the temporary file (x2wechat.py:165-166): the target path is
untouched and the temporary file holds some prefix of the serialized data. -/
def saveCrashStates (fs : FS) (path data : String) : List FS :=
  (List.range (data.length + 1)).map fun k =>
    fsUpdate fs (tmpPath path) (some (String.mk (data.data.take k)))

/-- The final state of `save_json_atomic` (x2wechat.py:163-167): `os.replace`
atomically moves the fully written temporary file over the target. -/
def save_json_atomic (fs : FS) (path data : String) : FS :=
  fsUpdate (fsUpdate fs (tmpPath path) none) path (some data)

/-- Decidable equality for `Except`, so concrete runs can be checked with
`decide`. -/
instance {e a : Type} [DecidableEq e] [DecidableEq a] : DecidableEq (Except e a) := fun x y =>
  match x, y with
  | .error u, .error v =>
    if h : u = v then .isTrue (by rw [h]) else .isFalse (fun hc => h (by cases hc; rfl))
  | .ok u, .ok v =>
    if h : u = v then .isTrue (by rw [h]) else .isFalse (fun hc => h (by cases hc; rfl))
  | .error _, .ok _ => .isFalse (fun hc => by cases hc)
  | .ok _, .error _ => .isFalse (fun hc => by cases hc)

/-! ### Concrete fixtures used by witnesses and counterexamples -/

/-- An entry with id 100 published first (RFC-822 pubDate of 2025-01-01). -/
def itemA : Item :=
  ⟨"first tweet", "https://nitter.net/u/status/100", "Wed, 01 Jan 2025 00:00:00 GMT", ""⟩

/-- An entry with id 200 published second (RFC-822 pubDate of 2025-01-02);
note `"Thu..." < "Wed..."` as strings although it is the newer entry. -/
def itemB : Item :=
  ⟨"second tweet", "https://nitter.net/u/status/200", "Thu, 02 Jan 2025 00:00:00 GMT", ""⟩

/-- Entry without an extractable id in its link. -/
def itemNoId : Item :=
  ⟨"profile link", "https://nitter.net/u", "Fri, 03 Jan 2025 00:00:00 GMT", ""⟩

/-- Three entries with ids 1, 2, 3 whose pubDate strings sort in id order. -/
def item1 : Item := ⟨"t1", "https://nitter.net/u/status/1", "a", ""⟩

def item2 : Item := ⟨"t2", "https://nitter.net/u/status/2", "b", ""⟩

def item3 : Item := ⟨"t3", "https://nitter.net/u/status/3", "c", ""⟩

/-- An entry with id 12, for watermark-advance witnesses. -/
def item12 : Item := ⟨"t", "https://nitter.net/u/status/12", "d", ""⟩

/-- A channel that accepts every entry. -/
def pushAll : Item → Bool := fun _ => true

/-- A channel that rejects exactly `item2`. -/
def failSecond : Item → Bool := fun it => it.link != "https://nitter.net/u/status/2"

/-- A mirror probe that failed (URLError path of `http_get`: status 0, empty). -/
def mirrorFail : MirrorResp := ⟨0, false, []⟩

/-- A usable mirror probe answering 200 with a nonempty, parseable body. -/
def mirrorGood : MirrorResp := ⟨200, true, [itemA]⟩

/-- A later mirror that would also answer, to observe it is never reached. -/
def mirrorLater : MirrorResp := ⟨200, true, [itemB]⟩

/-- An empty filesystem for the checkpoint-save witness. -/
def fsEmpty : FS := fun _ => none

/-! ### Basic facts about id extraction and integer parsing -/

theorem isPySpace_eq_false_of_isDigit {c : Char} (h : c.isDigit = true) :
    isPySpace c = false := by
  by_contra hs
  rw [Bool.not_eq_false] at hs
  simp only [isPySpace, decide_eq_true_eq, List.mem_cons, List.not_mem_nil, or_false] at hs
  rcases hs with rfl | rfl | rfl | rfl | rfl | rfl <;> exact absurd h (by decide)

theorem dropWhile_space_of_digits {l : List Char} (h : l.all Char.isDigit = true) :
    l.dropWhile isPySpace = l := by
  cases l with
  | nil => rfl
  | cons d rest =>
    have hd : d.isDigit = true := by
      have := List.all_eq_true.mp h d (List.mem_cons_self d rest)
      simpa using this
    exact List.dropWhile_cons_of_neg (by rw [isPySpace_eq_false_of_isDigit hd]; simp)

theorem pyInt_of_digits {t : String} (h1 : t.data ≠ []) (h2 : t.data.all Char.isDigit = true) :
    pyInt t = .ok ((digitsVal t.data : Nat) : Int) := by
  have hrev : t.data.reverse.all Char.isDigit = true := by
    rw [List.all_reverse]; exact h2
  rw [pyInt, dropWhile_space_of_digits h2, dropWhile_space_of_digits hrev,
    List.reverse_reverse]
  cases hd : t.data with
  | nil => exact absurd hd h1
  | cons d rest =>
    have hdd : d.isDigit = true := by
      have := List.all_eq_true.mp (hd ▸ h2) d (List.mem_cons_self d rest)
      simpa using this
    have hm : d ≠ '-' := fun e => absurd hdd (by rw [e]; decide)
    have hp : d ≠ '+' := fun e => absurd hdd (by rw [e]; decide)
    rw [pyIntCore, if_neg hm, if_neg hp, if_pos (hd ▸ h2)]

theorem matchAt_digits {s ds : List Char} (h : matchAt s = some ds) :
    ds ≠ [] ∧ ds.all Char.isDigit = true := by
  simp only [matchAt] at h
  split at h
  · split at h
    · exact absurd h (by simp)
    · next d ds' heq _ =>
      cases h
      refine ⟨by simp, ?_⟩
      rw [← heq]
      exact List.all_takeWhile
    · next d ds' a rest' heq _ =>
      split at h
      · exact absurd h (by simp)
      · cases h
        refine ⟨by simp, ?_⟩
        rw [← heq]
        exact List.all_takeWhile
  · exact absurd h (by simp)

theorem searchStatus_digits {s ds : List Char} (h : searchStatus s = some ds) :
    ds ≠ [] ∧ ds.all Char.isDigit = true := by
  induction s with
  | nil => cases h
  | cons c rest ih =>
    rw [searchStatus] at h
    rcases hm : matchAt (c :: rest) with _ | ds'
    · rw [hm] at h
      exact ih h
    · rw [hm] at h
      cases h
      exact matchAt_digits hm

theorem extract_tweet_id_digits {link t : String} (h : extract_tweet_id link = some t) :
    t.data ≠ [] ∧ t.data.all Char.isDigit = true := by
  rw [extract_tweet_id] at h
  rcases hs : searchStatus link.data with _ | ds
  · rw [hs] at h
    cases h
  · rw [hs] at h
    cases h
    exact searchStatus_digits hs

theorem extract_tweet_id_ne_empty {link t : String} (h : extract_tweet_id link = some t) :
    t ≠ "" := by
  intro e
  subst e
  exact (extract_tweet_id_digits h).1 rfl

theorem pyInt_of_extract {link t : String} (h : extract_tweet_id link = some t) :
    pyInt t = .ok ((digitsVal t.data : Nat) : Int) :=
  pyInt_of_digits (extract_tweet_id_digits h).1 (extract_tweet_id_digits h).2

theorem tweetIdInt_of_extract {it : Item} {t : String}
    (h : extract_tweet_id it.link = some t) :
    tweetIdInt it = some ((digitsVal t.data : Nat) : Int) := by
  rw [tweetIdInt, h, Option.some_bind, pyInt_of_extract h]
  rfl

/-! ### Characterizing the watermark filter -/

theorem ok_bind {α β : Type} (a : α) (f : α → Except Unit β) :
    (Except.ok a >>= f) = f a := rfl

theorem error_bind {α β : Type} (f : α → Except Unit β) :
    ((Except.error () : Except Unit α) >>= f) = Except.error () := rfl

/-- Whether an item has an extractable tweet id in its link. -/
def hasTid (it : Item) : Bool :=
  (extract_tweet_id it.link).isSome

theorem hasTid_of_keepNew {n : Int} {it : Item} (h : keepNew n it = true) :
    ∃ t, extract_tweet_id it.link = some t := by
  rw [keepNew] at h
  rcases he : extract_tweet_id it.link with _ | t
  · rw [tweetIdInt, he] at h
    cases h
  · exact ⟨t, rfl⟩

theorem filterNew_none (items : List Item) :
    filterNew none items = .ok (items.filter hasTid) := by
  induction items with
  | nil => rfl
  | cons it rest ih =>
    rw [List.filter_cons]
    rcases he : extract_tweet_id it.link with _ | tid
    · have hk : hasTid it = false := by rw [hasTid, he]; rfl
      rw [hk, filterNew, he]
      simp only [Bool.false_eq_true, if_false]
      exact ih
    · have hk : hasTid it = true := by rw [hasTid, he]; rfl
      rw [hk, filterNew, he, if_pos rfl]
      show (filterNew none rest >>= fun r => pure (it :: r)) = _
      rw [ih, ok_bind]
      rfl

theorem keepNew_of_extract {n : Int} {it : Item} {t : String}
    (h : extract_tweet_id it.link = some t) :
    keepNew n it = decide (n < ((digitsVal t.data : Nat) : Int)) := by
  rw [keepNew, tweetIdInt_of_extract h]

theorem filterNew_some {lid : String} {n : Int} (hl : pyInt lid = .ok n)
    (items : List Item) :
    filterNew (some lid) items = .ok (items.filter (keepNew n)) := by
  induction items with
  | nil => rfl
  | cons it rest ih =>
    rw [List.filter_cons]
    rcases he : extract_tweet_id it.link with _ | tid
    · have hk : keepNew n it = false := by
        rw [keepNew, tweetIdInt, he]
        rfl
      rw [hk, filterNew, he]
      simp only [Bool.false_eq_true, if_false]
      exact ih
    · rw [keepNew_of_extract he, filterNew, he]
      show (pyInt tid >>= fun t => pyInt lid >>= fun l =>
        filterNew (some lid) rest >>= fun r => pure (if l < t then it :: r else r)) = _
      rw [pyInt_of_extract he, ok_bind, hl, ok_bind, ih, ok_bind]
      by_cases hlt : n < ((digitsVal tid.data : Nat) : Int)
      · rw [if_pos hlt, decide_eq_true hlt, if_pos rfl]
        rfl
      · rw [if_neg hlt, decide_eq_false hlt]
        simp only [Bool.false_eq_true, if_false]
        rfl

theorem filterNew_some_ok {lid : String} {items ni : List Item}
    (h : filterNew (some lid) items = .ok ni) :
    (∃ n, pyInt lid = .ok n) ∨ ni = [] := by
  induction items generalizing ni with
  | nil =>
    right
    cases h
    rfl
  | cons it rest ih =>
    rw [filterNew] at h
    rcases he : extract_tweet_id it.link with _ | tid
    · rw [he] at h
      exact ih h
    · rw [he] at h
      have h' : (pyInt tid >>= fun t => pyInt lid >>= fun l =>
          filterNew (some lid) rest >>= fun r =>
          pure (if l < t then it :: r else r)) = Except.ok ni := h
      rw [pyInt_of_extract he, ok_bind] at h'
      rcases hli : pyInt lid with e | l
      · rw [hli] at h'
        cases e
        rw [error_bind] at h'
        cases h'
      · exact Or.inl ⟨l, rfl⟩

/-! ### Characterizing the delivery loop -/

theorem deliverLoop_snd (push : Item → Bool) (s : List Item) :
    ∀ latest, (deliverLoop push latest s).2 = confirmedIds push s := by
  induction s with
  | nil => intro latest; rfl
  | cons it rest ih =>
    intro latest
    rw [deliverLoop, confirmedIds, List.filterMap_cons]
    rcases hc : confirmedId push it with _ | tid
    · rw [confirmedIds] at ih
      exact ih latest
    · rw [confirmedIds] at ih
      show tid :: (deliverLoop push (some tid) rest).2 = _
      rw [ih (some tid)]

theorem deliverLoop_fst (push : Item → Bool) (s : List Item) :
    ∀ latest, (deliverLoop push latest s).1 = (confirmedIds push s).getLast?.or latest := by
  induction s with
  | nil => intro latest; rfl
  | cons it rest ih =>
    intro latest
    rw [deliverLoop, confirmedIds, List.filterMap_cons]
    rcases hc : confirmedId push it with _ | tid
    · rw [confirmedIds] at ih
      exact ih latest
    · rw [confirmedIds] at ih
      show (deliverLoop push (some tid) rest).1 = _
      rw [ih (some tid), List.getLast?_cons]
      rcases hg : (List.filterMap (confirmedId push) rest).getLast? with _ | y

      · rfl

      · rfl

theorem deliverLoop_eq (push : Item → Bool) (latest : Option String) (s : List Item) :
    deliverLoop push latest s =
      ((confirmedIds push s).getLast?.or latest, confirmedIds push s) := by
  have h1 := deliverLoop_fst push s latest
  have h2 := deliverLoop_snd push s latest
  cases he : deliverLoop push latest s
  rw [he] at h1 h2
  simp only at h1 h2
  rw [h1, h2]

theorem getLast?_mem {α : Type} {l : List α} {a : α} (h : l.getLast? = some a) :
    a ∈ l := by
  induction l with
  | nil => cases h
  | cons x rest ih =>
    rw [List.getLast?_cons] at h
    rcases hr : rest.getLast? with _ | y
    · rw [hr] at h
      cases h
      exact List.mem_cons_self _ _
    · rw [hr] at h
      cases h
      exact List.mem_cons_of_mem _ (ih hr)

theorem confirmedIds_mem {push : Item → Bool} {s : List Item} {t : String}
    (h : t ∈ confirmedIds push s) :
    ∃ it, it ∈ s ∧ push it = true ∧ extract_tweet_id it.link = some t := by
  rw [confirmedIds] at h
  rcases List.mem_filterMap.mp h with ⟨it, hmem, hc⟩
  rw [confirmedId] at hc
  by_cases hp : push it = true
  · rw [if_pos hp] at hc
    exact ⟨it, hmem, hp, hc⟩
  · rw [if_neg hp] at hc
    cases hc

theorem mem_confirmedIds {push : Item → Bool} {s : List Item} {it : Item} {t : String}
    (hmem : it ∈ s) (hp : push it = true) (he : extract_tweet_id it.link = some t) :
    t ∈ confirmedIds push s := by
  rw [confirmedIds]
  exact List.mem_filterMap.mpr ⟨it, hmem, by rw [confirmedId, if_pos hp, he]⟩

/-- Any id confirmed on the sorted filtered list exceeds the watermark that
the filter compared against. -/
theorem confirmed_gt_watermark {push : Item → Bool} {n : Int} {items : List Item}
    {t : String}
    (h : t ∈ confirmedIds push (sortByPubDate (items.filter (keepNew n)))) :
    n < ((digitsVal t.data : Nat) : Int) := by
  obtain ⟨it, hmem, hp, he⟩ := confirmedIds_mem h
  have hmem' : it ∈ items.filter (keepNew n) :=
    ((List.perm_insertionSort pubLe _).mem_iff).mp hmem
  have hk := (List.mem_filter.mp hmem').2
  rw [keepNew_of_extract he] at hk
  exact of_decide_eq_true hk

/-! ### Watermark facts about one account's pass -/

theorem pyInt_empty : pyInt "" = .error () := rfl

theorem wmInt_some {us : UserState} {n : Int} (h : wmInt us = some n) :
    ∃ lid, getLastId us = some lid ∧ pyInt lid = .ok n := by
  rw [wmInt] at h
  rcases hg : getLastId us with _ | lid
  · rw [hg] at h
    cases h
  · rw [hg, Option.some_bind] at h
    refine ⟨lid, rfl, ?_⟩
    rcases hp : pyInt lid with e | m
    · rw [hp] at h
      cases h
    · rw [hp] at h
      have h' : some m = some n := h
      cases h'
      rfl

theorem wmInt_of {us : UserState} {lid : String} {n : Int}
    (hg : getLastId us = some lid) (hp : pyInt lid = .ok n) : wmInt us = some n := by
  rw [wmInt, hg, Option.some_bind, hp]
  rfl

theorem wmInt_of_digits {t : String} (h1 : t.data ≠ [])
    (h2 : t.data.all Char.isDigit = true) :
    wmInt (some (some t)) = some ((digitsVal t.data : Nat) : Int) :=
  wmInt_of rfl (pyInt_of_digits h1 h2)

/-- Watermark monotonicity over one pass: if the stored watermark parses to
`n` and the pass completes without an exception, the stored watermark still
parses afterwards and did not decrease. -/
theorem processAccount_mono {push : Item → Bool} {us : UserState} {items : List Item}
    {r : PassResult} {n : Int} (hw : wmInt us = some n)
    (h : processAccount push us items = .ok r) :
    ∃ n', wmInt r.newState = some n' ∧ n ≤ n' := by
  obtain ⟨lid, hlid, hpn⟩ := wmInt_some hw
  rw [processAccount] at h
  by_cases hit : items = []
  · rw [if_pos hit] at h
    have h' : Except.ok (PassResult.mk us []) = Except.ok r := h
    cases h'
    exact ⟨n, hw, le_refl n⟩
  · rw [if_neg hit, hlid, filterNew_some hpn] at h
    have h' : Except.ok (afterFilter push us (items.filter (keepNew n))) = Except.ok r := h
    cases h'
    rw [afterFilter]
    by_cases hni : items.filter (keepNew n) = []
    · rw [if_pos hni]
      exact ⟨n, hw, le_refl n⟩
    · rw [if_neg hni, deliverLoop_eq, finishPass]
      rcases hg : (confirmedIds push (sortByPubDate (items.filter (keepNew n)))).getLast?
        with _ | t
      · show ∃ n', wmInt (finishPass us (Option.none.or (getLastId us), _)).newState = _ ∧ _
        rw [hlid]
        show ∃ n', wmInt (finishPass us (some lid, _)).newState = _ ∧ _
        rw [finishPass]
        have hlne : lid ≠ "" := by
          intro e
          rw [e, pyInt_empty] at hpn
          cases hpn
        show ∃ n', wmInt (if lid = "" then _ else _ : PassResult).newState = _ ∧ _
        rw [if_neg hlne]
        exact ⟨n, wmInt_of rfl hpn, le_refl n⟩
      · have htm : t ∈ confirmedIds push (sortByPubDate (items.filter (keepNew n))) :=
          getLast?_mem hg
        obtain ⟨it, _, _, he⟩ := confirmedIds_mem htm
        have hdig := extract_tweet_id_digits he
        have htne : t ≠ "" := by
          intro e
          subst e
          exact hdig.1 rfl
        show ∃ n', wmInt (finishPass us ((some t).or (getLastId us), _)).newState = _ ∧ _
        rw [finishPass]
        show ∃ n', wmInt (if t = "" then _ else _ : PassResult).newState = _ ∧ _
        rw [if_neg htne]
        refine ⟨(digitsVal t.data : Nat), wmInt_of_digits hdig.1 hdig.2, ?_⟩
        exact le_of_lt (confirmed_gt_watermark htm)

/-- Watermark monotonicity over any sequence of passes. -/
theorem runPasses_mono {ps : List ((Item → Bool) × List Item)} {us us' : UserState}
    {n : Int} (hw : wmInt us = some n) (h : runPasses ps us = .ok us') :
    ∃ n', wmInt us' = some n' ∧ n ≤ n' := by
  induction ps generalizing us n with
  | nil =>
    have h' : Except.ok us = Except.ok us' := h
    cases h'
    exact ⟨n, hw, le_refl n⟩
  | cons p rest ih =>
    rw [runPasses] at h
    rcases hp : processAccount p.1 us p.2 with e | r
    · rw [hp] at h
      cases h
    · rw [hp] at h
      obtain ⟨m, hm, hnm⟩ := processAccount_mono hw hp
      obtain ⟨n', hn', hmn'⟩ := ih hm h
      exact ⟨n', hn', le_trans hnm hmn'⟩

theorem finishPass_none (us : UserState) (cf : List String) :
    finishPass us (none, cf) = ⟨us, cf⟩ := rfl

theorem finishPass_some (us : UserState) (s : String) (cf : List String) :
    finishPass us (some s, cf) = if s = "" then ⟨us, cf⟩ else ⟨some (some s), cf⟩ := rfl

/-- Inversion for a completed pass: either nothing was attempted or the
filter succeeded and the rest of the pass ran on its output. -/
theorem processAccount_ok_cases {push : Item → Bool} {us : UserState}
    {items : List Item} {r : PassResult} (h : processAccount push us items = .ok r) :
    r = ⟨us, []⟩ ∨
      ∃ ni, filterNew (getLastId us) items = .ok ni ∧ r = afterFilter push us ni := by
  rw [processAccount] at h
  by_cases hit : items = []
  · rw [if_pos hit] at h
    have h' : Except.ok (PassResult.mk us []) = .ok r := h
    cases h'
    exact Or.inl rfl
  · rw [if_neg hit] at h
    rcases hf : filterNew (getLastId us) items with e | ni
    · rw [hf] at h
      cases h
    · rw [hf] at h
      have h' : Except.ok (afterFilter push us ni) = .ok r := h
      cases h'
      exact Or.inr ⟨ni, rfl, rfl⟩

/-- If a pass changed the stored watermark string, the new value is one of
the confirmed-delivered ids of that pass. -/
theorem afterFilter_change {push : Item → Bool} {us : UserState} {ni : List Item}
    {lid' : String}
    (hset : getLastId (afterFilter push us ni).newState = some lid')
    (hchange : getLastId us ≠ some lid') :
    lid' ∈ (afterFilter push us ni).delivered := by
  rw [afterFilter] at hset ⊢
  by_cases hni : ni = []
  · rw [if_pos hni] at hset
    exact absurd hset hchange
  · rw [if_neg hni, deliverLoop_eq] at hset ⊢
    rcases hg : (confirmedIds push (sortByPubDate ni)).getLast? with _ | t
    · rw [hg] at hset
      rw [Option.none_or] at hset ⊢
      rcases hu : getLastId us with _ | s
      · rw [hu, finishPass_none] at hset
        exact absurd hset hchange
      · rw [hu, finishPass_some] at hset
        by_cases hs : s = ""
        · rw [if_pos hs] at hset
          exact absurd hset hchange
        · rw [if_neg hs] at hset
          have hgl : getLastId (some (some s)) = some s := rfl
          rw [hgl] at hset
          rw [hu] at hchange
          exact absurd hset hchange
    · rw [hg] at hset
      rw [Option.or_some] at hset ⊢
      have htm := getLast?_mem hg
      obtain ⟨it, _, _, he⟩ := confirmedIds_mem htm
      have hdig := extract_tweet_id_digits he
      have htne : t ≠ "" := by
        intro e
        subst e
        exact hdig.1 rfl
      rw [finishPass_some, if_neg htne] at hset ⊢
      have hgl : getLastId (some (some t)) = some t := rfl
      rw [hgl] at hset
      cases hset
      exact htm

theorem processAccount_change {push : Item → Bool} {us : UserState} {items : List Item}
    {r : PassResult} {lid' : String} (h : processAccount push us items = .ok r)
    (hset : getLastId r.newState = some lid') (hchange : getLastId us ≠ some lid') :
    lid' ∈ r.delivered := by
  rcases processAccount_ok_cases h with rfl | ⟨ni, _, rfl⟩
  · exact absurd hset hchange
  · exact afterFilter_change hset hchange

/-! ### Claim theorems -/

/-- C1, counterexample: with three new entries of ids 1, 2, 3 where the
channel rejects exactly the second, the pass still delivers the third entry
and persists watermark "3" — not watermark "1", the end of the contiguous
confirmed prefix — so the undelivered entry 2 now sits below the watermark. -/
theorem C1_counterexample :
    processAccount failSecond none [item1, item2, item3] =
      .ok ⟨some (some "3"), ["1", "3"]⟩ ∧ failSecond item2 = false := by
  constructor
  · decide
  · decide

/-- C1, amended: the delivery loop does not stop at an unconfirmed entry.
Every entry of the pass is attempted: the confirmed deliveries are exactly
the entries whose push succeeded and whose link has an id, and the final
`latest_seen_id` (hence the persisted watermark) is the id of the last
confirmed entry in sorted order — not the last entry of the contiguous
confirmed-delivered prefix — so an entry that failed delivery can end up
below the watermark and be skipped by later passes. -/
theorem C1_amended (push : Item → Bool) (latest : Option String) (s : List Item) :
    (deliverLoop push latest s).2 = confirmedIds push s ∧
    (deliverLoop push latest s).1 = ((confirmedIds push s).getLast?).or latest :=
  ⟨deliverLoop_snd push s latest, deliverLoop_fst push s latest⟩

/-- C2: across every sequence of passes, the persisted watermark's integer
value is non-decreasing, and whenever one pass changes the stored watermark
string, the new value is the id of an entry whose delivery was confirmed
(the push returned true) in that pass. -/
theorem C2_watermark_monotone_and_confirmed :
    (∀ (ps : List ((Item → Bool) × List Item)) (us us' : UserState) (n : Int),
      wmInt us = some n → runPasses ps us = .ok us' →
      ∃ n', wmInt us' = some n' ∧ n ≤ n') ∧
    (∀ (push : Item → Bool) (us : UserState) (items : List Item) (r : PassResult)
      (lid' : String),
      processAccount push us items = .ok r →
      getLastId r.newState = some lid' → getLastId us ≠ some lid' →
      lid' ∈ r.delivered) :=
  ⟨fun _ _ _ _ hw h => runPasses_mono hw h,
   fun _ _ _ _ _ h hset hchange => processAccount_change h hset hchange⟩

/-- Witness for C2: a concrete pass from watermark 10 over an entry with id
12, showing both hypotheses satisfiable and the conclusions at work. -/
theorem C2_witness :
    (∃ n', wmInt (some (some "12")) = some n' ∧ (10 : Int) ≤ n') ∧
    "12" ∈ (PassResult.mk (some (some "12")) ["12"]).delivered :=
  ⟨C2_watermark_monotone_and_confirmed.1 [(pushAll, [item12])]
      (some (some "10")) (some (some "12")) 10 (by decide) rfl,
   C2_watermark_monotone_and_confirmed.2 pushAll (some (some "10")) [item12]
      ⟨some (some "12"), ["12"]⟩ "12" rfl rfl (by decide)⟩

/-- C3: the watermark filter keeps exactly the entries whose id, compared as
an integer, strictly exceeds the parsed watermark; with no watermark it
keeps exactly the entries with an extractable id; and entries without an
extractable id are dropped and never appear among confirmed deliveries. -/
theorem C3_watermark_filter :
    (∀ items : List Item, filterNew none items = .ok (items.filter hasTid)) ∧
    (∀ (lid : String) (n : Int) (items : List Item), pyInt lid = .ok n →
      filterNew (some lid) items = .ok (items.filter (keepNew n))) ∧
    (∀ (push : Item → Bool) (s : List Item) (t : String), t ∈ confirmedIds push s →
      ∃ it, it ∈ s ∧ push it = true ∧ extract_tweet_id it.link = some t) :=
  ⟨filterNew_none,
   fun _ _ items hl => filterNew_some hl items,
   fun _ _ _ h => confirmedIds_mem h⟩

/-- Witness for C3: filtering against watermark "150" on concrete entries,
and a confirmed delivery traced back to an entry carrying that id. -/
theorem C3_witness :
    filterNew (some "150") [itemA, itemNoId, itemB] =
      .ok ([itemA, itemNoId, itemB].filter (keepNew 150)) ∧
    (∃ it, it ∈ [itemA] ∧ pushAll it = true ∧
      extract_tweet_id it.link = some "100") :=
  ⟨C3_watermark_filter.2.1 "150" 150 [itemA, itemNoId, itemB] (by decide),
   C3_watermark_filter.2.2 pushAll [itemA] "100" (by decide)⟩

/-- C4: mirrors are probed strictly in list order; the first probe with
status 200 and a nonempty body is taken (contacting exactly the mirrors up
to and including it, so none after it), its parsed items are returned; and
when every probe fails the result is the empty list, not an error. -/
theorem C4_failover :
    (∀ (pre : List MirrorResp) (r : MirrorResp) (post : List MirrorResp),
      (∀ x ∈ pre, mirrorOk x = false) → mirrorOk r = true →
      fetch_latest_from_nitter (pre ++ r :: post) =
        (sortByPubDate r.items, pre.length + 1)) ∧
    (∀ ms : List MirrorResp, (∀ x ∈ ms, mirrorOk x = false) →
      fetch_latest_from_nitter ms = ([], ms.length)) := by
  constructor
  · intro pre r post hpre hr
    induction pre with
    | nil =>
      rw [List.nil_append, fetch_latest_from_nitter, hr]
      rfl
    | cons m rest ih =>
      rw [List.cons_append, fetch_latest_from_nitter,
        hpre m (List.mem_cons_self m rest)]
      simp only [Bool.false_eq_true, if_false]
      rw [ih fun x hx => hpre x (List.mem_cons_of_mem _ hx)]
      rfl
  · intro ms hms
    induction ms with
    | nil => rfl
    | cons m rest ih =>
      rw [fetch_latest_from_nitter, hms m (List.mem_cons_self m rest)]
      simp only [Bool.false_eq_true, if_false]
      rw [ih fun x hx => hms x (List.mem_cons_of_mem _ hx)]
      rfl

/-- Witness for C4: a failing probe, then a usable one, then another mirror:
the second mirror's items are returned and only two mirrors were contacted;
and two failing probes produce the empty result. -/
theorem C4_witness :
    fetch_latest_from_nitter [mirrorFail, mirrorGood, mirrorLater] =
      (sortByPubDate mirrorGood.items, 2) ∧
    fetch_latest_from_nitter [mirrorFail, mirrorFail] = ([], 2) :=
  ⟨C4_failover.1 [mirrorFail] mirrorGood [mirrorLater] (by decide) (by decide),
   C4_failover.2 [mirrorFail, mirrorFail] (by decide)⟩

/-- C5: the claim says entries are handed on sorted by publication timestamp
ascending; the code (x2wechat.py:146, 331, its own comments saying
"standardize sort oldest->newest" and "push oldest first") sorts by the raw
pubDate string. On real RFC-822 pubDates this is not chronological: here the
entry of Thu 02 Jan 2025 sorts before the entry of Wed 01 Jan 2025 because
"Thu" < "Wed" as strings, so the newer entry comes first. -/
theorem C5_sort_not_chronological :
    sortByPubDate [itemA, itemB] = [itemB, itemA] ∧
    itemA.pubDate = "Wed, 01 Jan 2025 00:00:00 GMT" ∧
    itemB.pubDate = "Thu, 02 Jan 2025 00:00:00 GMT" := by
  refine ⟨by decide, rfl, rfl⟩

/-- C6, counterexample: a 201 transport status with an application-level
success body yields `False` from both push functions, although 201 is a 2xx
status — the code tests `code != 200`, not "non-2xx". -/
theorem C6_counterexample :
    push_wecom 201 (some (some 0)) = false ∧
    push_serverchan 201 (some (some 0)) = false ∧
    200 ≤ 201 ∧ 201 < 300 := by
  refine ⟨by decide, by decide, by decide, by decide⟩

/-- C6, amended: each push function returns true iff the transport status is
exactly 200 and the decoded body reports the application-level success code
(`errcode` 0 with default -1 for the JSON channel, a present `code` equal to
0 for the form channel); every other decoded outcome yields false. In the
model every failure is a returned value, mirroring the try/except in the
code that converts decode errors to False. -/
theorem C6_amended (status : Nat) (body : DecodedBody) :
    (push_wecom status body = true ↔
      status = 200 ∧ ∃ ec, body = some ec ∧ ec.getD (-1) = 0) ∧
    (push_serverchan status body = true ↔
      status = 200 ∧ body = some (some 0)) := by
  by_cases hs : status = 200
  · subst hs
    rcases body with _ | ec
    · constructor
      · rw [push_wecom.eq_def, if_neg (fun h => h rfl)]
        simp
      · rw [push_serverchan.eq_def, if_neg (fun h => h rfl)]
        simp
    · constructor
      · rw [push_wecom.eq_def, if_neg (fun h => h rfl)]
        simp [beq_iff_eq]
      · rw [push_serverchan.eq_def, if_neg (fun h => h rfl)]
        rcases ec with _ | v
        · simp
        · simp [beq_iff_eq]
  · constructor
    · rw [push_wecom.eq_def, if_pos hs]
      simp [hs]
    · rw [push_serverchan.eq_def, if_pos hs]
      simp [hs]

/-- C7, counterexample: with a loaded checkpoint whose stored last_id is the
non-numeric string "abc" and one fetched entry with an id, the watermark
comparison `int(tid) > int(last_id)` raises ValueError out of the account's
processing (there is no try/except in run_once's loop). -/
theorem C7_counterexample :
    processAccount pushAll (some (some "abc")) [itemA] = .error () := by
  decide

/-- C7, amended: if the loaded per-user record is absent or its stored
last_id parses as an integer (as every checkpoint written by this program
does), then one account's processing completes without an exception; other
failure paths (fetch, parse, missing ids, failed pushes) are values. -/
theorem C7_amended (push : Item → Bool) (us : UserState) (items : List Item)
    (h : getLastId us = none ∨ ∃ n : Int, wmInt us = some n) :
    ∃ r, processAccount push us items = .ok r := by
  rw [processAccount]
  by_cases hit : items = []
  · rw [if_pos hit]
    exact ⟨⟨us, []⟩, rfl⟩
  · rw [if_neg hit]
    rcases h with hg | ⟨n, hw⟩
    · rw [hg, filterNew_none]
      exact ⟨_, rfl⟩
    · obtain ⟨lid, hlid, hpn⟩ := wmInt_some hw
      rw [hlid, filterNew_some hpn]
      exact ⟨_, rfl⟩

/-- Witness for C7 at a parseable stored watermark. -/
theorem C7_witness :
    ∃ r, processAccount pushAll (some (some "10")) [itemA] = .ok r :=
  C7_amended pushAll (some (some "10")) [itemA] (Or.inr ⟨10, by decide⟩)

/-- C8: every filesystem state reachable while `save_json_atomic` is still
writing the temporary file leaves the previous checkpoint byte-for-byte
readable at its path (so nothing previously confirmed is lost), and the
final `os.replace` installs the full serialized state at the path. -/
theorem C8_atomic_save (fs : FS) (path data : String) (st : FS)
    (hmem : st ∈ saveCrashStates fs path data) :
    st path = fs path ∧ save_json_atomic fs path data path = some data := by
  have hne : path ≠ tmpPath path := by
    intro e
    have hlen := congrArg String.length e
    rw [tmpPath, String.length_append] at hlen
    have h4 : (".tmp" : String).length = 4 := rfl
    rw [h4] at hlen
    omega
  constructor
  · rw [saveCrashStates] at hmem
    rcases List.mem_map.mp hmem with ⟨k, _, rfl⟩
    simp only [fsUpdate]
    rw [if_neg hne]
  · rw [save_json_atomic]
    simp [fsUpdate]

/-- Witness for C8: the crash state in which the temporary file exists but
is still empty leaves the target path untouched, and the completed save
installs the data. -/
theorem C8_witness :
    fsUpdate fsEmpty (tmpPath "state.json") (some "") "state.json" =
      fsEmpty "state.json" ∧
    save_json_atomic fsEmpty "state.json" "data" "state.json" = some "data" :=
  C8_atomic_save fsEmpty "state.json" "data"
    (fsUpdate fsEmpty (tmpPath "state.json") (some ""))
    (List.mem_map.mpr ⟨0, List.mem_range.mpr (by decide), rfl⟩)

/-- C10: the JSON-channel payload's text is `text[:4096]`: a message of at
most 4096 characters is sent unchanged, and a longer one is truncated to
exactly its first 4096 characters (never rejected or split). -/
theorem C10_truncation (text : List Char) :
    (text.length ≤ 4096 → wecomContent text = text) ∧
    (wecomContent text).length = min text.length 4096 ∧
    (4096 < text.length → (wecomContent text).length = 4096) ∧
    wecomContent text = text.take 4096 := by
  refine ⟨fun h => ?_, ?_, fun h => ?_, rfl⟩
  · rw [wecomContent]
    exact List.take_of_length_le h
  · rw [wecomContent, List.length_take, Nat.min_comm]
  · rw [wecomContent, List.length_take]
    omega

/-- Witness for C10 on a short concrete message. -/
theorem C10_witness :
    wecomContent "hello".data = "hello".data ∧
    (wecomContent "hello".data).length = min "hello".data.length 4096 :=
  ⟨(C10_truncation "hello".data).1 (by decide), (C10_truncation "hello".data).2.1⟩

/-! ### Re-run analysis (C9) -/

theorem finishPass_delivered (us : UserState) (p : Option String × List String) :
    (finishPass us p).delivered = p.2 := by
  rcases p with ⟨f, snd⟩
  rcases f with _ | s
  · rw [finishPass_none]
  · rw [finishPass_some]
    by_cases hs : s = ""
    · rw [if_pos hs]
    · rw [if_neg hs]

theorem getLast?_none_eq_nil {α : Type} {l : List α} (h : l.getLast? = none) :
    l = [] := by
  cases l with
  | nil => rfl
  | cons x rest =>
    rw [List.getLast?_cons] at h
    cases h

theorem tweetIdInt_some_extract {it : Item} {a : Int} (h : tweetIdInt it = some a) :
    ∃ t, extract_tweet_id it.link = some t ∧ pyInt t = .ok a := by
  rw [tweetIdInt] at h
  rcases he : extract_tweet_id it.link with _ | t
  · rw [he] at h
    cases h
  · rw [he, Option.some_bind] at h
    refine ⟨t, rfl, ?_⟩
    rcases hp : pyInt t with e | v
    · rw [hp] at h
      cases h
    · rw [hp] at h
      have h' : some v = some a := h
      cases h'
      rfl

theorem confirmedId_eq_some {push : Item → Bool} {x : Item} {tx : String}
    (h : confirmedId push x = some tx) :
    push x = true ∧ extract_tweet_id x.link = some tx := by
  rw [confirmedId] at h
  by_cases hp : push x = true
  · rw [if_pos hp] at h
    exact ⟨hp, h⟩
  · rw [if_neg hp] at h
    cases h

/-- Every item the filter keeps came from the input list. -/
theorem filterNew_ok_mem {lastId : Option String} {items ni : List Item}
    (h : filterNew lastId items = .ok ni) : ∀ it ∈ ni, it ∈ items := by
  induction items generalizing ni with
  | nil =>
    have h' : ([] : List Item) = ni := by injection h
    subst h'
    intro it hit
    exact absurd hit (List.not_mem_nil it)
  | cons x rest ih =>
    rw [filterNew] at h
    rcases he : extract_tweet_id x.link with _ | tid
    · rw [he] at h
      intro it hit
      exact List.mem_cons_of_mem _ (ih h it hit)
    · rw [he] at h
      rcases lastId with _ | lid
      · have h' : (filterNew none rest >>= fun r => pure (x :: r)) = Except.ok ni := h
        rcases hr : filterNew none rest with e | r
        · rw [hr] at h'
          cases e
          rw [error_bind] at h'
          cases h'
        · rw [hr, ok_bind] at h'
          have h'' : x :: r = ni := by injection h'
          subst h''
          intro it hit
          rcases List.mem_cons.mp hit with rfl | hmem
          · exact List.mem_cons_self _ _
          · exact List.mem_cons_of_mem _ (ih hr it hmem)
      · have h' : (pyInt tid >>= fun t => pyInt lid >>= fun l =>
            filterNew (some lid) rest >>= fun r =>
            pure (if l < t then x :: r else r)) = Except.ok ni := h
        rcases ht : pyInt tid with e | tv
        · rw [ht] at h'
          cases e
          rw [error_bind] at h'
          cases h'
        · rw [ht, ok_bind] at h'
          rcases hl : pyInt lid with e | lv
          · rw [hl] at h'
            cases e
            rw [error_bind] at h'
            cases h'
          · rw [hl, ok_bind] at h'
            rcases hr : filterNew (some lid) rest with e | r
            · rw [hr] at h'
              cases e
              rw [error_bind] at h'
              cases h'
            · rw [hr, ok_bind] at h'
              have h'' : (if lv < tv then x :: r else r) = ni := by injection h'
              subst h''
              intro it hit
              by_cases hc : lv < tv
              · rw [if_pos hc] at hit
                rcases List.mem_cons.mp hit with rfl | hmem
                · exact List.mem_cons_self _ _
                · exact List.mem_cons_of_mem _ (ih hr it hmem)
              · rw [if_neg hc] at hit
                exact List.mem_cons_of_mem _ (ih hr it hit)

/-- On a pubDate-sorted run whose ids are order-consistent, the id of any
confirmed entry is bounded by the id that ends up as the watermark (the last
confirmed one). -/
theorem confirmed_le_getLast {push : Item → Bool} :
    ∀ s : List Item, List.Sorted pubLe s →
    (∀ x ∈ s, ∀ y ∈ s, pubLe x y → ∀ a b : Int,
      tweetIdInt x = some a → tweetIdInt y = some b → a ≤ b) →
    ∀ t : String, (confirmedIds push s).getLast? = some t →
    ∀ it ∈ s, push it = true → ∀ a : Int, tweetIdInt it = some a →
    ∃ m : Int, pyInt t = .ok m ∧ a ≤ m := by
  intro s
  induction s with
  | nil =>
    intro _ _ t _ it hit
    exact absurd hit (List.not_mem_nil it)
  | cons x rest ih =>
    intro hsort hmono t hlast it hit hp a ha
    rcases hcx : confirmedId push x with _ | tx
    · have hcf : confirmedIds push (x :: rest) = confirmedIds push rest := by
        simp only [confirmedIds, List.filterMap_cons, hcx]
      rw [hcf] at hlast
      rcases List.mem_cons.mp hit with rfl | hmem
      · obtain ⟨ta, hea, _⟩ := tweetIdInt_some_extract ha
        rw [confirmedId, if_pos hp, hea] at hcx
        cases hcx
      · exact ih hsort.of_cons
          (fun x' hx' y' hy' => hmono x' (List.mem_cons_of_mem _ hx') y'
            (List.mem_cons_of_mem _ hy')) t hlast it hmem hp a ha
    · have hcf : confirmedIds push (x :: rest) = tx :: confirmedIds push rest := by
        simp only [confirmedIds, List.filterMap_cons, hcx]
      rw [hcf, List.getLast?_cons] at hlast
      obtain ⟨hpx, hex⟩ := confirmedId_eq_some hcx
      rcases hr : (confirmedIds push rest).getLast? with _ | t'
      · rw [hr] at hlast
        have h' : some tx = some t := hlast
        injection h' with heq
        rw [← heq]
        rcases List.mem_cons.mp hit with rfl | hmem
        · have hv := tweetIdInt_of_extract hex
          rw [ha] at hv
          have hv' : a = ((digitsVal tx.data : Nat) : Int) := by
            injection hv
          exact ⟨_, pyInt_of_extract hex, le_of_eq hv'⟩
        · obtain ⟨ta, hea, _⟩ := tweetIdInt_some_extract ha
          have hmm : ta ∈ confirmedIds push rest := mem_confirmedIds hmem hp hea
          rw [getLast?_none_eq_nil hr] at hmm
          exact absurd hmm (List.not_mem_nil ta)
      · rw [hr] at hlast
        have h' : some t' = some t := hlast
        injection h' with heq
        rw [← heq]
        rcases List.mem_cons.mp hit with rfl | hmem
        · have ht'm := getLast?_mem hr
          obtain ⟨y, hy, hpy, hey⟩ := confirmedIds_mem ht'm
          have hyv := tweetIdInt_of_extract hey
          have hxy : pubLe it y := List.rel_of_sorted_cons hsort y hy
          have hle := hmono it (List.mem_cons_self _ _) y (List.mem_cons_of_mem _ hy)
            hxy a _ ha hyv
          exact ⟨_, pyInt_of_extract hey, hle⟩
        · exact ih hsort.of_cons
            (fun x' hx' y' hy' => hmono x' (List.mem_cons_of_mem _ hx') y'
              (List.mem_cons_of_mem _ hy')) t' hr it hmem hp a ha

/-- C9, counterexample: two entries with ids 100 (older, pubDate Wed 01 Jan)
and 200 (newer, pubDate Thu 02 Jan), ids increasing with real time as the
source guarantees, every push accepted. The lexicographic pubDate sort puts
id 200 first, so the first pass delivers both but persists watermark "100";
a second pass against the unchanged feed and the produced checkpoint
delivers the id-200 entry again — one notification, not zero. -/
theorem C9_counterexample :
    processAccount pushAll none [itemA, itemB] =
      .ok ⟨some (some "100"), ["200", "100"]⟩ ∧
    processAccount pushAll (some (some "100")) [itemA, itemB] =
      .ok ⟨some (some "200"), ["200"]⟩ := by
  constructor
  · decide
  · decide

/-- C9, amended: with the channel's per-entry outcomes fixed across the two
passes, if along the pubDate-string order the extractable ids are
non-decreasing (which real feeds satisfy only when string order matches
chronology), then a second pass against the unchanged feed and the first
pass's resulting checkpoint record confirms zero deliveries. -/
theorem C9_idempotent_amended {push : Item → Bool} {us : UserState}
    {items : List Item} {r1 : PassResult}
    (hmono : ∀ x ∈ items, ∀ y ∈ items, pubLe x y → ∀ a b : Int,
      tweetIdInt x = some a → tweetIdInt y = some b → a ≤ b)
    (h1 : processAccount push us items = .ok r1) :
    ∃ r2, processAccount push r1.newState items = .ok r2 ∧ r2.delivered = [] := by
  rcases processAccount_ok_cases h1 with h1' | ⟨ni, hf, h1'⟩
  · subst h1'
    exact ⟨⟨us, []⟩, h1, rfl⟩
  · subst h1'
    by_cases hni : ni = []
    · subst hni
      have haf : afterFilter push us [] = ⟨us, []⟩ := rfl
      rw [haf] at h1 ⊢
      exact ⟨⟨us, []⟩, h1, rfl⟩
    · have hitems : items ≠ [] := by
        intro e
        subst e
        have h0 : filterNew (getLastId us) [] = Except.ok ([] : List Item) := rfl
        rw [h0] at hf
        have h0' : ([] : List Item) = ni := by injection hf
        exact hni h0'.symm
      rcases hg : (confirmedIds push (sortByPubDate ni)).getLast? with _ | t
      · -- no delivery was confirmed in the first pass
        have hcfnil : confirmedIds push (sortByPubDate ni) = [] := getLast?_none_eq_nil hg
        have hgl2 : getLastId (afterFilter push us ni).newState = getLastId us := by
          rw [afterFilter, if_neg hni, deliverLoop_eq, hg, Option.none_or]
          rcases hl0 : getLastId us with _ | s
          · rw [finishPass_none]
            exact hl0
          · rw [finishPass_some]
            by_cases hs : s = ""
            · rw [if_pos hs]
              exact hl0
            · rw [if_neg hs]
              rfl
        refine ⟨afterFilter push (afterFilter push us ni).newState ni, ?_, ?_⟩
        · rw [processAccount, if_neg hitems, hgl2, hf]
          rfl
        · rw [afterFilter, if_neg hni, deliverLoop_eq, finishPass_delivered]
          exact hcfnil
      · -- the watermark advanced to the last confirmed id t
        have htm : t ∈ confirmedIds push (sortByPubDate ni) := getLast?_mem hg
        obtain ⟨zt, hzmem, hzp, hze⟩ := confirmedIds_mem htm
        have hpyt : pyInt t = .ok ((digitsVal t.data : Nat) : Int) := pyInt_of_extract hze
        have htne : t ≠ "" := extract_tweet_id_ne_empty hze
        have haf : afterFilter push us ni =
            ⟨some (some t), confirmedIds push (sortByPubDate ni)⟩ := by
          rw [afterFilter, if_neg hni, deliverLoop_eq, hg, Option.or_some,
            finishPass_some, if_neg htne]
        rw [haf]
        have hfilter2 : filterNew (some t) items =
            .ok (items.filter (keepNew ((digitsVal t.data : Nat) : Int))) :=
          filterNew_some hpyt items
        refine ⟨afterFilter push (some (some t))
          (items.filter (keepNew ((digitsVal t.data : Nat) : Int))), ?_, ?_⟩
        · show processAccount push (some (some t)) items = _
          rw [processAccount, if_neg hitems]
          have hgl : getLastId (some (some t) : UserState) = some t := rfl
          rw [hgl, hfilter2]
          rfl
        · by_cases h2e : items.filter (keepNew ((digitsVal t.data : Nat) : Int)) = []
          · rw [afterFilter, if_pos h2e]
          · rw [afterFilter, if_neg h2e, deliverLoop_eq, finishPass_delivered]
            rw [confirmedIds, List.filterMap_eq_nil_iff]
            intro y hy
            have hymem : y ∈ items.filter (keepNew ((digitsVal t.data : Nat) : Int)) :=
              (List.perm_insertionSort pubLe _).mem_iff.mp hy
            obtain ⟨hyitems, hyk⟩ := List.mem_filter.mp hymem
            obtain ⟨ty, hey⟩ := hasTid_of_keepNew hyk
            have hyv := tweetIdInt_of_extract hey
            have hbv : ((digitsVal t.data : Nat) : Int) <
                ((digitsVal ty.data : Nat) : Int) := by
              rw [keepNew_of_extract hey] at hyk
              exact of_decide_eq_true hyk
            rw [confirmedId]
            by_cases hpy : push y = true
            · exfalso
              have hyni : y ∈ ni := by
                rcases hl0 : getLastId us with _ | lid
                · rw [hl0, filterNew_none] at hf
                  have hni_eq : items.filter hasTid = ni := by injection hf
                  rw [← hni_eq]
                  refine List.mem_filter.mpr ⟨hyitems, ?_⟩
                  rw [hasTid, hey]
                  rfl
                · rw [hl0] at hf
                  rcases filterNew_some_ok hf with ⟨n0, hn0⟩ | hnil
                  · rw [filterNew_some hn0] at hf
                    have hni_eq : items.filter (keepNew n0) = ni := by injection hf
                    have hn0m : n0 < ((digitsVal t.data : Nat) : Int) := by
                      refine @confirmed_gt_watermark push n0 items t ?_
                      rw [hni_eq]
                      exact htm
                    rw [← hni_eq]
                    refine List.mem_filter.mpr ⟨hyitems, ?_⟩
                    rw [keepNew_of_extract hey]
                    exact decide_eq_true (by omega)
                  · exact absurd hnil hni
              have hsorted : List.Sorted pubLe (sortByPubDate ni) :=
                List.sorted_insertionSort pubLe ni
              have hmem_s1 : y ∈ sortByPubDate ni :=
                (List.perm_insertionSort pubLe ni).mem_iff.mpr hyni
              have hmono_s1 : ∀ x' ∈ sortByPubDate ni, ∀ y' ∈ sortByPubDate ni,
                  pubLe x' y' → ∀ a b : Int,
                  tweetIdInt x' = some a → tweetIdInt y' = some b → a ≤ b := by
                intro x' hx' y' hy' hxy a b hxa hyb
                have hx'ni : x' ∈ ni := (List.perm_insertionSort pubLe ni).mem_iff.mp hx'
                have hy'ni : y' ∈ ni := (List.perm_insertionSort pubLe ni).mem_iff.mp hy'
                exact hmono x' (filterNew_ok_mem hf x' hx'ni) y'
                  (filterNew_ok_mem hf y' hy'ni) hxy a b hxa hyb
              obtain ⟨m', hm', hle⟩ := confirmed_le_getLast (sortByPubDate ni) hsorted
                hmono_s1 t hg y hmem_s1 hpy _ hyv
              rw [hpyt] at hm'
              have hmm : ((digitsVal t.data : Nat) : Int) = m' := by injection hm'
              omega
            · rw [if_neg hpy]

/-- Witness for C9: a two-entry feed whose pubDate-string order matches the
id order; the first pass delivers both and the second confirms nothing. -/
theorem C9_witness :
    ∃ r2, processAccount pushAll
      (PassResult.mk (some (some "2")) ["1", "2"]).newState [item1, item2] =
        .ok r2 ∧ r2.delivered = [] :=
  @C9_idempotent_amended pushAll none [item1, item2]
    ⟨some (some "2"), ["1", "2"]⟩
    (by
      intro x hx y hy hxy a b hxa hyb
      rcases List.mem_cons.mp hx with rfl | hx'
      · rcases List.mem_cons.mp hy with rfl | hy'
        · have h1 : tweetIdInt item1 = some 1 := by decide
          rw [h1] at hxa hyb
          injection hxa with ha
          injection hyb with hb
          omega
        · rcases List.mem_cons.mp hy' with rfl | hy2
          · have h1 : tweetIdInt item1 = some 1 := by decide
            have h2 : tweetIdInt item2 = some 2 := by decide
            rw [h1] at hxa
            rw [h2] at hyb
            injection hxa with ha
            injection hyb with hb
            omega
          · exact absurd hy2 (List.not_mem_nil y)
      · rcases List.mem_cons.mp hx' with rfl | hx2
        · rcases List.mem_cons.mp hy with rfl | hy'
          · exact absurd hxy (by decide)
          · rcases List.mem_cons.mp hy' with rfl | hy2
            · have h2 : tweetIdInt item2 = some 2 := by decide
              rw [h2] at hxa hyb
              injection hxa with ha
              injection hyb with hb
              omega
            · exact absurd hy2 (List.not_mem_nil y)
        · exact absurd hx2 (List.not_mem_nil x))
    (by decide)

end X2Wechat

